import Mathlib

/-!
Verification development for the `wsbm` WebSocket benchmarking tool.

The repository holds one Go program in two variants (an older one storing
query-catalog lines raw, a newer one parsing them at load time). Go strings
and byte slices are modelled as `List Char` with byte/ASCII semantics; the
shared atomic task counter is modelled as a small-step scheduler state
machine; fallible functions return `Option`.
-/

namespace Wsbm

/-- Go strings / byte slices, modelled as lists of characters. -/
abbrev GoStr := List Char

/-- Convenience conversion for writing concrete inputs. -/
def goStr (s : String) : GoStr := s.toList

/-- ASCII whitespace recognised by `unicode.IsSpace` / `bytes.TrimSpace`
(`' '`, `\t`, `\n`, `\v`, `\f`, `\r`); the non-ASCII Unicode space code
points are outside the modelled character set. -/
def isSpaceByte (c : Char) : Bool :=
  c = ' ' || c = Char.ofNat 9 || c = Char.ofNat 10 || c = Char.ofNat 11 ||
  c = Char.ofNat 12 || c = Char.ofNat 13

/-- `bytes.TrimSpace`: drop leading and trailing whitespace. -/
def trimSpace (s : GoStr) : GoStr :=
  ((s.dropWhile isSpaceByte).reverse.dropWhile isSpaceByte).reverse

/-- Index of the leftmost occurrence of `tok` in `s`, if any
(`strings.Index`). -/
def firstMatch (tok : GoStr) : GoStr → Option Nat
  | [] => if tok.isEmpty then some 0 else none
  | c :: rest =>
    if tok.isPrefixOf (c :: rest) then some 0
    else (firstMatch tok rest).map (· + 1)

theorem firstMatch_isPrefixOf {tok s : GoStr} {i : Nat}
    (h : firstMatch tok s = some i) : tok.isPrefixOf (s.drop i) = true := by
  induction s generalizing i with
  | nil =>
    simp only [firstMatch] at h
    split at h
    · rename_i he
      simp only [List.isEmpty_iff] at he
      cases h
      simp [he]
    · exact absurd h (by simp)
  | cons c rest ih =>
    simp only [firstMatch] at h
    split at h
    · rename_i hp
      cases h
      simpa using hp
    · match hrec : firstMatch tok rest with
      | none => rw [hrec] at h; cases h
      | some j =>
        rw [hrec] at h
        simp only [Option.map_some'] at h
        cases h
        simpa using ih hrec

theorem firstMatch_min {tok s : GoStr} {i : Nat}
    (h : firstMatch tok s = some i) :
    ∀ j, j < i → tok.isPrefixOf (s.drop j) = false := by
  induction s generalizing i with
  | nil =>
    intro j hj
    simp only [firstMatch] at h
    split at h
    · cases h; omega
    · exact absurd h (by simp)
  | cons c rest ih =>
    intro j hj
    simp only [firstMatch] at h
    split at h
    · cases h; omega
    · rename_i hp
      match hrec : firstMatch tok rest with
      | none => rw [hrec] at h; cases h
      | some k =>
        rw [hrec] at h
        simp only [Option.map_some'] at h
        cases h
        match j with
        | 0 =>
          rw [Bool.eq_false_iff]
          simpa [List.isPrefixOf_iff_prefix] using hp
        | j' + 1 =>
          have := ih hrec j' (by omega)
          simpa using this

theorem firstMatch_none {tok s : GoStr} (h : firstMatch tok s = none) :
    ∀ j, tok.isPrefixOf (s.drop j) = false := by
  induction s with
  | nil =>
    intro j
    simp only [firstMatch] at h
    split at h
    · cases h
    · rename_i he
      simp only [List.isEmpty_iff] at he
      rw [Bool.eq_false_iff]
      simpa [List.isPrefixOf_iff_prefix, List.prefix_nil] using he
  | cons c rest ih =>
    intro j
    simp only [firstMatch] at h
    split at h
    · cases h
    · rename_i hp
      match hrec : firstMatch tok rest with
      | none =>
        match j with
        | 0 =>
          rw [Bool.eq_false_iff]
          simpa [List.isPrefixOf_iff_prefix] using hp
        | j' + 1 => simpa using ih hrec j'
      | some k => rw [hrec] at h; simp at h

theorem firstMatch_length {tok s : GoStr} {i : Nat}
    (htok : tok ≠ []) (h : firstMatch tok s = some i) :
    i + tok.length ≤ s.length := by
  have hp := firstMatch_isPrefixOf h
  rw [List.isPrefixOf_iff_prefix] at hp
  have := hp.length_le
  rw [List.length_drop] at this
  by_cases hi : i ≤ s.length
  · omega
  · exfalso
    have hd : s.drop i = [] := List.drop_eq_nil_of_le (by omega)
    rw [hd] at hp
    exact htok (List.prefix_nil.mp hp)

end Wsbm

namespace Wsbm

/-- Greedy left-to-right split of `s` on every occurrence of `tok`
(`strings.Split`), written with explicit fuel so it is structural (and
kernel-computable); the wrapper below supplies fuel larger than the
string length, which the lemmas show is never exhausted. -/
def splitSeqF (fuel : Nat) (tok s : GoStr) : List GoStr :=
  match fuel with
  | 0 => [s]
  | fuel + 1 =>
    if tok.isEmpty = true then [s]
    else
      match firstMatch tok s with
      | none => [s]
      | some i => s.take i :: splitSeqF fuel tok (s.drop (i + tok.length))

def splitSeq (tok s : GoStr) : List GoStr := splitSeqF (s.length + 1) tok s

/-- `strings.Join(parts, sep)`. -/
def joinWith (sep : GoStr) : List GoStr → GoStr
  | [] => []
  | [a] => a
  | a :: b :: rest => a ++ sep ++ joinWith sep (b :: rest)

/-- `strings.Replace(s, tok, rep, -1)`; for non-empty `tok` Go's
`Replace` with `n = -1` is `strings.Join(strings.Split(s, tok), rep)`. -/
def goReplace (s tok rep : GoStr) : GoStr := joinWith rep (splitSeq tok s)

theorem splitSeqF_ne_nil (fuel : Nat) (tok s : GoStr) :
    splitSeqF fuel tok s ≠ [] := by
  cases fuel with
  | zero => simp [splitSeqF]
  | succ fuel =>
    rw [splitSeqF]
    split
    · simp
    · split <;> simp

theorem splitSeq_ne_nil (tok s : GoStr) : splitSeq tok s ≠ [] :=
  splitSeqF_ne_nil _ tok s

theorem joinWith_cons (sep a : GoStr) (l : List GoStr) (hl : l ≠ []) :
    joinWith sep (a :: l) = a ++ sep ++ joinWith sep l := by
  match l with
  | [] => exact absurd rfl hl
  | b :: rest => rfl

/-- The split at the leftmost occurrence decomposes the string. -/
theorem splitSeq_decomp {tok s : GoStr} {i : Nat}
    (h : firstMatch tok s = some i) :
    s = s.take i ++ tok ++ s.drop (i + tok.length) := by
  have hp := firstMatch_isPrefixOf h
  rw [List.isPrefixOf_iff_prefix] at hp
  obtain ⟨t, ht⟩ := hp
  have hts : t = s.drop (i + tok.length) := by
    have h2 := congrArg (List.drop tok.length) ht
    rw [List.drop_left, List.drop_drop] at h2
    rw [h2, Nat.add_comm]
  calc s = s.take i ++ s.drop i := (List.take_append_drop i s).symm
    _ = s.take i ++ (tok ++ t) := by rw [ht]
    _ = s.take i ++ tok ++ s.drop (i + tok.length) := by
          rw [hts, List.append_assoc]

theorem joinWith_splitSeqF (tok : GoStr) (htok : tok ≠ []) :
    ∀ (fuel : Nat) (s : GoStr), s.length < fuel →
      joinWith tok (splitSeqF fuel tok s) = s := by
  have hne : tok.isEmpty = false := by
    simpa [List.isEmpty_iff] using htok
  intro fuel
  induction fuel with
  | zero => intro s hs; omega
  | succ fuel ih =>
    intro s hs
    rw [splitSeqF, if_neg (by simp [hne])]
    cases hfm : firstMatch tok s with
    | none => rfl
    | some i =>
      have hlen := firstMatch_length htok hfm
      have hpos : 1 ≤ tok.length := List.length_pos.mpr htok
      rw [joinWith_cons _ _ _ (splitSeqF_ne_nil _ tok _)]
      rw [ih _ (by rw [List.length_drop]; omega)]
      exact (splitSeq_decomp hfm).symm

/-- Joining the chunks back with the search token restores the string:
the chunks are exactly the untouched text between occurrences. -/
theorem joinWith_splitSeq (tok : GoStr) (htok : tok ≠ []) (s : GoStr) :
    joinWith tok (splitSeq tok s) = s :=
  joinWith_splitSeqF tok htok _ s (Nat.lt_succ_self _)

/-- Infix occurrences are prefixes of some suffix. -/
theorem infix_iff_drop {l s : List Char} :
    l <:+: s ↔ ∃ j, l <+: s.drop j := by
  constructor
  · rintro ⟨t1, t2, rfl⟩
    refine ⟨t1.length, t2, ?_⟩
    rw [List.append_assoc, List.drop_left]
  · rintro ⟨j, t, ht⟩
    exact ⟨s.take j, t, by rw [List.append_assoc, ht, List.take_append_drop]⟩

theorem splitSeqF_chunk_no_tok (tok : GoStr) (htok : tok ≠ []) :
    ∀ (fuel : Nat) (s : GoStr), s.length < fuel →
      ∀ chunk ∈ splitSeqF fuel tok s, ¬ tok <:+: chunk := by
  have hne : tok.isEmpty = false := by
    simpa [List.isEmpty_iff] using htok
  intro fuel
  induction fuel with
  | zero => intro s hs; omega
  | succ fuel ih =>
    intro s hs
    rw [splitSeqF, if_neg (by simp [hne])]
    cases hfm : firstMatch tok s with
      | none =>
        intro chunk hmem
        simp only [List.mem_singleton] at hmem
        subst hmem
        rw [infix_iff_drop]
        rintro ⟨j, hpre⟩
        have h0 := firstMatch_none hfm j
        rw [List.isPrefixOf_iff_prefix.mpr hpre] at h0
        simp at h0
      | some i =>
        have hlen := firstMatch_length htok hfm
        have hpos : 1 ≤ tok.length := List.length_pos.mpr htok
        intro chunk hmem
        rcases List.mem_cons.mp hmem with hmem | hmem
        · subst hmem
          rw [infix_iff_drop]
          rintro ⟨j, hpre⟩
          by_cases hj : j < i
          · have hdt : (s.take i).drop j = (s.drop j).take (i - j) := by
              rw [List.drop_take]
            have hpre2 : tok <+: s.drop j := by
              rw [hdt] at hpre
              exact hpre.trans ⟨(s.drop j).drop (i - j),
                List.take_append_drop _ _⟩
            have h0 := firstMatch_min hfm j hj
            rw [List.isPrefixOf_iff_prefix.mpr hpre2] at h0
            simp at h0
          · have hempty : (s.take i).drop j = [] := by
              apply List.drop_eq_nil_of_le
              rw [List.length_take]
              omega
            rw [hempty] at hpre
            exact htok (List.prefix_nil.mp hpre)
        · exact ih _ (by rw [List.length_drop]; omega) chunk hmem

/-- No chunk produced by the split contains an occurrence of the token:
every occurrence is consumed by the split. -/
theorem splitSeq_chunk_no_tok (tok : GoStr) (htok : tok ≠ []) (s : GoStr) :
    ∀ chunk ∈ splitSeq tok s, ¬ tok <:+: chunk :=
  splitSeqF_chunk_no_tok tok htok _ s (Nat.lt_succ_self _)

end Wsbm

namespace Wsbm

/-- `strings.Cut`-style split at the first occurrence of `c`: the part
before it and, when found, the part after it. -/
def cutChar (c : Char) : GoStr → GoStr × Option GoStr
  | [] => ([], none)
  | x :: rest =>
    if x = c then ([], some rest)
    else (x :: (cutChar c rest).1, (cutChar c rest).2)

theorem cutChar_snd_length {c : Char} {s r : GoStr}
    (h : (cutChar c s).2 = some r) : r.length < s.length := by
  induction s generalizing r with
  | nil => simp [cutChar] at h
  | cons x rest ih =>
    simp only [cutChar] at h
    split at h
    · cases h
      simp
    · have := ih h
      simp only [List.length_cons]
      omega

theorem cutChar_getD_length (c x : Char) (xs : GoStr) :
    ((cutChar c (x :: xs)).2.getD []).length < (x :: xs).length := by
  match h : (cutChar c (x :: xs)).2 with
  | none => simp
  | some r =>
    have := cutChar_snd_length h
    simpa [h] using this

/-- Value of a hexadecimal digit. -/
def hexVal (c : Char) : Option Nat :=
  if '0' ≤ c ∧ c ≤ '9' then some (c.toNat - '0'.toNat)
  else if 'a' ≤ c ∧ c ≤ 'f' then some (c.toNat - 'a'.toNat + 10)
  else if 'A' ≤ c ∧ c ≤ 'F' then some (c.toNat - 'A'.toNat + 10)
  else none

/-- `url.QueryUnescape`: `%XX` becomes the byte `XX`, `+` becomes a
space, an invalid or truncated escape is an error. -/
def queryUnescape : GoStr → Option GoStr
  | [] => some []
  | '%' :: a :: b :: rest => do
      let ha ← hexVal a
      let hb ← hexVal b
      let r ← queryUnescape rest
      pure (Char.ofNat (16 * ha + hb) :: r)
  | '%' :: _ => none
  | '+' :: rest => (queryUnescape rest).map (' ' :: ·)
  | c :: rest => (queryUnescape rest).map (c :: ·)

/-- RFC 3986 unreserved characters (never escaped by Go). -/
def isUnreserved (c : Char) : Bool :=
  c.isAlpha || c.isDigit || c = '-' || c = '_' || c = '.' || c = '~'

def hexDigitUpper (n : Nat) : Char :=
  if n < 10 then Char.ofNat ('0'.toNat + n) else Char.ofNat ('A'.toNat + n - 10)

/-- `url.QueryEscape` on bytes: unreserved bytes pass, space becomes
`+`, everything else becomes `%XX`. -/
def queryEscape (s : GoStr) : GoStr :=
  s.flatMap fun c =>
    if isUnreserved c then [c]
    else if c = ' ' then ['+']
    else ['%', hexDigitUpper (c.toNat / 16 % 16), hexDigitUpper (c.toNat % 16)]

/-- `url.Values`: a map from key to list of values, modelled as an
association list with at most one entry per key. -/
abbrev Values := List (GoStr × List GoStr)

/-- Map lookup `v[key]`. -/
def vGet : Values → GoStr → Option (List GoStr)
  | [], _ => none
  | (k, v) :: rest, key => if k = key then some v else vGet rest key

/-- `url.Values.Add`: `v[key] = append(v[key], value)`. -/
def vAdd : Values → GoStr → GoStr → Values
  | [], key, value => [(key, [value])]
  | (k, v) :: rest, key, value =>
    if k = key then (k, v ++ [value]) :: rest
    else (k, v) :: vAdd rest key value

/-- Map assignment `v[key] = value`, replacing any existing binding. -/
def vSet : Values → GoStr → List GoStr → Values
  | [], key, value => [(key, value)]
  | (k, v) :: rest, key, value =>
    if k = key then (key, value) :: rest
    else (k, v) :: vSet rest key value

/-- One pass of `url.ParseQuery`: split on `&`, reject pieces holding a
semicolon, unescape key and value; a failing piece is skipped with the
error flag set and parsing continues (the caller only sees the flag).
Each iteration consumes at least one character, so the fuel supplied by
`parseQuery` is never exhausted (`cutChar_getD_length`). -/
def parseQueryLoopF (fuel : Nat) (m : Values) (err : Bool) (s : GoStr) :
    Values × Bool :=
  match fuel with
  | 0 => (m, err)
  | fuel + 1 =>
    match s with
    | [] => (m, err)
    | x :: xs =>
      let kv := (cutChar '&' (x :: xs)).1
      let s2 := ((cutChar '&' (x :: xs)).2).getD []
      if kv.contains ';' then parseQueryLoopF fuel m true s2
      else if kv.isEmpty then parseQueryLoopF fuel m err s2
      else
        let k := (cutChar '=' kv).1
        let v := ((cutChar '=' kv).2).getD []
        match queryUnescape k, queryUnescape v with
        | some uk, some uv => parseQueryLoopF fuel (vAdd m uk uv) err s2
        | _, _ => parseQueryLoopF fuel m true s2

/-- `url.ParseQuery`. -/
def parseQuery (s : GoStr) : Values × Bool :=
  parseQueryLoopF (s.length + 1) [] false s

/-- Byte-wise lexicographic string order (`sort.Strings`). -/
def lexLe : GoStr → GoStr → Bool
  | [], _ => true
  | _ :: _, [] => false
  | a :: as, b :: bs => if a = b then lexLe as bs else decide (a < b)

def insertByKey (e : GoStr × List GoStr) : Values → Values
  | [] => [e]
  | f :: rest =>
    if lexLe e.1 f.1 then e :: f :: rest else f :: insertByKey e rest

/-- Entries sorted by key (`url.Values.Encode` sorts its keys). -/
def sortByKey : Values → Values
  | [] => []
  | e :: rest => insertByKey e (sortByKey rest)

/-- `url.Values.Encode`: keys in sorted order, one `k=v` piece per
value, pieces joined by `&`, keys and values query-escaped. -/
def vEncode (vs : Values) : GoStr :=
  joinWith ['&'] ((sortByKey vs).flatMap fun kv =>
    kv.2.map fun v => queryEscape kv.1 ++ ['='] ++ queryEscape v)

end Wsbm

namespace Wsbm

/-- The fields of `url.URL` used by the program (no user info, no opaque
form, no raw-path override: a URL outside this shape fails to parse in
the model). -/
structure GoURL where
  scheme : GoStr
  host : GoStr
  path : GoStr
  forceQuery : Bool
  rawQuery : GoStr
  fragment : GoStr
deriving Repr, DecidableEq, Inhabited

def isCtl (c : Char) : Bool := c.toNat < 32 || c.toNat = 127

def isSchemeFirst (c : Char) : Bool := c.isAlpha

def isSchemeChar (c : Char) : Bool :=
  c.isAlpha || c.isDigit || c = '+' || c = '-' || c = '.'

def isHostChar (c : Char) : Bool :=
  c.isAlpha || c.isDigit || c = '-' || c = '.' || c = '_'

/-- Path characters Go's `URL.String` emits verbatim (unreserved plus
the path sub-delimiters); a path outside this set would be re-escaped
on output and is outside the modelled subset. -/
def isPathChar (c : Char) : Bool :=
  isUnreserved c || c = '$' || c = '&' || c = '+' || c = ',' || c = '/' ||
  c = ':' || c = ';' || c = '=' || c = '@'

/-- Host names with an optional `:port`. -/
def validHost (h : GoStr) : Bool :=
  match cutChar ':' h with
  | (name, none) => name.all isHostChar
  | (name, some port) => name.all isHostChar && port.all Char.isDigit

/-- Path and query section of the parse. A lone trailing `?` sets
`ForceQuery`; otherwise the query is everything after the first `?`,
kept verbatim (mirrors `url.parse`). -/
def parsePathQuery (scheme host fragment : GoStr) (after : GoStr) :
    Option GoURL :=
  match cutChar '?' after with
  | (path, none) =>
    if path.all isPathChar then
      some ⟨scheme, host, path, false, [], fragment⟩
    else none
  | (path, some rq) =>
    if path.all isPathChar then
      if rq.isEmpty then some ⟨scheme, host, path, true, [], fragment⟩
      else some ⟨scheme, host, path, false, rq, fragment⟩
    else none

/-- Model of `url.Parse`, restricted to absolute `scheme://host/...`
URLs whose host and path hold no percent-escapes and no characters that
`URL.String` would re-escape; control characters are rejected as in Go,
and URLs outside the subset map to `none`. The scheme is lower-cased as
in Go. -/
def urlParse (s : GoStr) : Option GoURL :=
  if s.any isCtl then none else
  match cutChar '#' s with
  | (beforeHash, fragOpt) =>
    let fragment := fragOpt.getD []
    if fragment.contains '%' || fragment.contains '#' then none else
    match cutChar ':' beforeHash with
    | (_, none) => none
    | ([], some _) => none
    | (c0 :: srest, some rest) =>
      if isSchemeFirst c0 && srest.all isSchemeChar then
        let scheme := (c0 :: srest).map Char.toLower
        match rest with
        | '/' :: '/' :: rest2 =>
          let authority := rest2.takeWhile fun c => c ≠ '/' && c ≠ '?'
          let after := rest2.drop authority.length
          if authority.contains '@' || !(validHost authority) then none
          else parsePathQuery scheme authority fragment after
        | _ => none
      else none

/-- `URL.String` for the modelled subset: host and path are already in
canonical escaped form, the raw query is emitted verbatim. -/
def GoURL.toUrlString (u : GoURL) : GoStr :=
  u.scheme ++ [':'] ++
  (if u.host ≠ [] ∨ u.path ≠ [] then ['/', '/'] ++ u.host else []) ++
  u.path ++
  (if u.forceQuery = true ∨ u.rawQuery ≠ [] then ['?'] ++ u.rawQuery else []) ++
  (if u.fragment ≠ [] then ['#'] ++ u.fragment else [])

/-- The scheme switch at the end of `getUrl`
(`http` becomes `ws`, `https` becomes `wss`, all else passes through). -/
def fixScheme (u : GoURL) : GoURL :=
  if u.scheme = goStr "http" then { u with scheme := goStr "ws" }
  else if u.scheme = goStr "https" then { u with scheme := goStr "wss" }
  else u

/-- `u.Query()`: parse the raw query, ignoring the error. -/
def uQueryValues (u : GoURL) : Values := (parseQuery u.rawQuery).1

/-- The merge loop `for name, value := range newQuery { query[name] = value }`;
map iteration order is arbitrary in Go and irrelevant for maps (no
duplicate keys), the model folds the entries in list order. -/
def mergeQuery (orig newQ : Values) : Values :=
  newQ.foldl (fun q e => vSet q e.1 e.2) orig

end Wsbm

namespace Wsbm

/-- The literal placeholder token substituted in the URL template. -/
def idToken : GoStr := goStr "<id>"

/-- `fmt.Sprint(id)` for the (positive) task id: its decimal digits. -/
def decimalStr (n : Nat) : GoStr := (toString n).toList

/-- The query-override application inside `getUrl`: merge the override
into `u.Query()` and store the re-encoded result in the raw query. -/
def applyOverride (u : GoURL) (newQ : Values) : GoURL :=
  { u with rawQuery := vEncode (mergeQuery (uQueryValues u) newQ) }

def lbrace : Char := Char.ofNat 123
def rbrace : Char := Char.ofNat 125

def isJsonWs (c : Char) : Bool :=
  c = ' ' || c = Char.ofNat 9 || c = Char.ofNat 10 || c = Char.ofNat 13

def skipWs (s : GoStr) : GoStr := s.dropWhile isJsonWs

/-- Body of a JSON string literal up to the closing quote; escape
sequences are outside the modelled subset. -/
def jsonStringBody : GoStr → Option (GoStr × GoStr)
  | [] => none
  | '"' :: rest => some ([], rest)
  | '\\' :: _ => none
  | c :: rest => (jsonStringBody rest).map fun p => (c :: p.1, p.2)

def jsonStringLit : GoStr → Option (GoStr × GoStr)
  | '"' :: rest => jsonStringBody rest
  | _ => none

/-- A scalar JSON value together with the string `fmt.Sprint` renders
for it after `json.Unmarshal` into `interface{}`: strings print as
their content, `true`/`false` as themselves, and integer literals short
enough to be exact in `float64` print as their digits. Fractions,
exponents, negatives, `null`, and nested values are outside the
modelled subset. -/
def jsonValue (s : GoStr) : Option (GoStr × GoStr) :=
  match s with
  | '"' :: _ => jsonStringLit s
  | 't' :: 'r' :: 'u' :: 'e' :: rest => some (goStr "true", rest)
  | 'f' :: 'a' :: 'l' :: 's' :: 'e' :: rest => some (goStr "false", rest)
  | c :: _ =>
    if c.isDigit then
      let digits := s.takeWhile Char.isDigit
      let rest := s.drop digits.length
      if digits.length ≤ 15 ∧ (digits.headI = '0' → digits.length = 1) then
        match rest with
        | '.' :: _ => none
        | 'e' :: _ => none
        | 'E' :: _ => none
        | _ => some (digits, rest)
      else none
    else none
  | [] => none

/-- Key/value pairs of a flat JSON object, starting after the opening
brace (whitespace already skipped); duplicate keys keep the last value,
as `json.Unmarshal` does, via the map-set semantics of `vSet`. The fuel
bounds the number of pairs; each loop iteration consumes at least one
character, so `s.length + 1` fuel can never run out. -/
def parseJsonPairs (fuel : Nat) (q : Values) (s : GoStr) : Option Values :=
  match fuel with
  | 0 => none
  | fuel + 1 =>
    match s with
    | [] => none
    | c :: rest =>
      if c = rbrace then (if (skipWs rest).isEmpty then some q else none)
      else
        match jsonStringLit (c :: rest) with
        | none => none
        | some (key, r1) =>
          match skipWs r1 with
          | ':' :: r2 =>
            match jsonValue (skipWs r2) with
            | none => none
            | some (valStr, r3) =>
              let q2 := vSet q key [valStr]
              match skipWs r3 with
              | [] => none
              | c2 :: r4 =>
                if c2 = ',' then parseJsonPairs fuel q2 (skipWs r4)
                else if c2 = rbrace then
                  (if (skipWs r4).isEmpty then some q2 else none)
                else none
          | _ => none

/-- `parseJson` (variant 2): `json.Unmarshal` of one line into
`map[string]interface{}` followed by `query.Set(name, fmt.Sprint(value))`
over the entries, modelled for flat objects of scalar values. -/
def parseJson (line : GoStr) : Option Values :=
  match skipWs line with
  | [] => none
  | c :: rest =>
    if c = lbrace then parseJsonPairs (line.length + 1) [] (skipWs rest)
    else none

end Wsbm

namespace Wsbm

namespace V1

/-- Variant 1 `loadQueries` (src/main.go 54–75): every line of the file
is kept, trimmed — including blank lines; nothing is parsed at load
time. The file is modelled as its list of lines (without newlines, as
`bufio.Reader.ReadLine` yields them). -/
def loadQueries (fileLines : List GoStr) : List GoStr :=
  fileLines.map trimSpace

/-- Variant 1 benchmark state: the URL template and the raw catalog. -/
structure WsBenchmark where
  url : GoStr
  queries : List GoStr
deriving Repr, DecidableEq

/-- Variant 1 `getUrl` (src/main.go 125–156): substitute the id, parse,
pick the raw line at `id % len`, `url.ParseQuery` it now (an error
fails this task), merge, re-encode, switch the scheme. -/
def WsBenchmark.getUrl (b : WsBenchmark) (id : Nat) : Option GoURL :=
  match urlParse (goReplace b.url idToken (decimalStr id)) with
  | none => none
  | some u =>
    if 0 < b.queries.length then
      let rawQuery := b.queries.getD (id % b.queries.length) []
      let pr := parseQuery rawQuery
      if pr.2 then none
      else some (fixScheme (applyOverride u pr.1))
    else some (fixScheme u)

end V1

namespace V2

/-- Classification of one trimmed non-blank line (src/main.go 329–333):
a leading `{` selects the JSON parser, anything else the query parser;
`none` is a parse failure (non-nil `err`). -/
def parseLine (t : GoStr) : Option Values :=
  match t with
  | [] => none
  | c :: _ =>
    if c = lbrace then parseJson t
    else
      let pr := parseQuery t
      if pr.2 then none else some pr.1

/-- Variant 2 `loadQueries` (src/main.go 303–341): blank lines (after
trimming) are skipped; a line failing its detected format is logged and
skipped. Returns the catalog and the list of lines that were logged as
parse failures. -/
def loadQueries (fileLines : List GoStr) : List Values × List GoStr :=
  fileLines.foldl
    (fun acc line =>
      let t := trimSpace line
      if t.isEmpty then acc
      else
        match parseLine t with
        | some q => (acc.1 ++ [q], acc.2)
        | none => (acc.1, acc.2 ++ [t]))
    ([], [])

/-- Variant 2 benchmark state: the URL template and the parsed catalog. -/
structure WsBenchmark where
  url : GoStr
  queries : List Values
deriving Repr, DecidableEq

/-- The override picked for task `id`: index `id % len(b.queries)`
(src/main.go 400); the index is always in bounds when the catalog is
non-empty, so the `getD` default is never used there. -/
def overrideSel (b : WsBenchmark) (id : Nat) : Values :=
  b.queries.getD (id % b.queries.length) []

/-- Variant 2 `getUrl` (src/main.go 391–417): substitute the id, parse,
merge the override selected by `id % len` (when a catalog is loaded),
re-encode, switch the scheme. -/
def WsBenchmark.getUrl (b : WsBenchmark) (id : Nat) : Option GoURL :=
  match urlParse (goReplace b.url idToken (decimalStr id)) with
  | none => none
  | some u =>
    if 0 < b.queries.length then
      some (fixScheme (applyOverride u (overrideSel b id)))
    else some (fixScheme u)

/-- Variant 2 `stdout.Write` (src/main.go 267–272): trim the payload,
write the trimmed bytes, then a newline; the returned count is the
first write's count — the trimmed length. Second component: the bytes
reaching standard output. -/
def stdoutWrite (p : GoStr) : Nat × GoStr :=
  ((trimSpace p).length, trimSpace p ++ [Char.ofNat 10])

/-- Sequential loop of `DryRun` over ids `id..request` (src/main.go
380–389): resolve, log `+ id url` on success, log-and-continue on
failure. Log entries are modelled as `(id, url-string)` pairs; the fuel
makes the recursion structural and is never exhausted for the fuel
`DryRun` supplies. -/
def dryRunLoopF (fuel : Nat) (b : WsBenchmark) (request id : Nat) :
    List (Nat × GoStr) :=
  match fuel with
  | 0 => []
  | fuel + 1 =>
    if id ≤ request then
      (match b.getUrl id with
       | none => []
       | some u => [(id, u.toUrlString)]) ++ dryRunLoopF fuel b request (id + 1)
    else []

/-- `DryRun` (src/main.go 380–389): ids 1..request in order, one log
line per successfully resolved id. Its body opens no sink and dials no
connection. -/
def DryRun (b : WsBenchmark) (request : Nat) : List (Nat × GoStr) :=
  dryRunLoopF (request + 1) b request 1

/-- Resource events of one task execution. -/
inductive Ev where
  | sinkOpen : Ev
  | sinkClose : Ev
  | connOpen : Ev
  | connClose : Ev
  | writeMsg : GoStr → Ev
deriving Repr, DecidableEq

/-- Environment resolving a task's external effects: whether the output
sink opens (file creation can fail), whether the WebSocket dial
succeeds, and the messages (type, payload) received before the read
that errors. The receive loop in `runTask` only exits through a read
error, so every terminating execution ends with one. -/
structure TaskEnv where
  openOk : Bool
  dialOk : Bool
  msgs : List (Nat × GoStr)

/-- `websocket.TextMessage`. -/
def TextMessage : Nat := 1

/-- `websocket.BinaryMessage`. -/
def BinaryMessage : Nat := 2

/-- The writes of the receive loop: text and binary payloads go to the
sink, other message types are ignored (src/main.go 440–449). -/
def writeEvents (msgs : List (Nat × GoStr)) : List Ev :=
  msgs.filterMap fun m =>
    if m.1 = TextMessage ∨ m.1 = BinaryMessage then some (.writeMsg m.2)
    else none

/-- `runTask` (src/main.go 419–449). First component: whether a non-nil
error is returned. The event list records, per return path, what was
opened and the deferred closes in LIFO order (connection before sink):
a resolve or sink-open failure returns with nothing opened; a dial
failure returns after the deferred sink close; a read error ends the
loop and both defers run. -/
def runTask (b : WsBenchmark) (id : Nat) (env : TaskEnv) : Bool × List Ev :=
  match WsBenchmark.getUrl b id with
  | none => (true, [])
  | some _ =>
    if env.openOk = false then (true, [])
    else if env.dialOk = false then (true, [.sinkOpen, .sinkClose])
    else
      (true, [.sinkOpen, .connOpen] ++ writeEvents env.msgs ++
        [.connClose, .sinkClose])

end V2

/-- `2^32`: the modulus of the wrapping 32-bit counter. -/
def WRAP : Nat := 4294967296

/-- `2^31`: the first bit pattern that is negative as an `int32`. -/
def HALF : Nat := 2147483648

/-- The Go `int` (64-bit) value obtained by sign-extending an `int32`
bit pattern: two's-complement interpretation of `n mod 2^32`. -/
def int32ToInt (n : Nat) : Int :=
  if n % WRAP < HALF then ((n % WRAP : Nat) : Int)
  else ((n % WRAP : Nat) : Int) - (WRAP : Int)

/-- Scheduler state of `WsBenchmark.Run` (identical in both variants,
src/main.go 89–112 and 355–378): the shared `int32` counter (stored as
its bit pattern, a natural number below `2^32`), each worker's stopped
flag, and the chronological list of (worker, task id) claims. Task ids
are `Int` because `id := int(atomic.AddInt32(&count, 1))` sign-extends
the wrapped 32-bit value. -/
structure SchedState (c : Nat) where
  counter : Nat
  done : Fin c → Bool
  claims : List (Fin c × Int)

def initState (c : Nat) : SchedState c :=
  ⟨0, fun _ => false, []⟩

/-- One atomic step of worker `w` in `Run`'s loop:
`id := int(atomic.AddInt32(&count, 1)); if id > request { return }`.
A stopped worker does nothing; otherwise the `int32` counter is
atomically incremented — wrapping at `2^32`, as `atomic.AddInt32` does —
and the worker either stops (the sign-extended id is past the total,
a 64-bit `int`) or claims that id (and then executes it, which touches
no shared state). -/
def schedStep {c : Nat} (total : Int) (s : SchedState c) (w : Fin c) :
    SchedState c :=
  if s.done w then s
  else
    let cnt := (s.counter + 1) % WRAP
    let id := int32ToInt cnt
    if total < id then ⟨cnt, Function.update s.done w true, s.claims⟩
    else ⟨cnt, s.done, s.claims ++ [(w, id)]⟩

/-- A run of the scheduler under an arbitrary interleaving `sched` of
worker steps (the adversary picks which worker performs its next atomic
increment at each moment). -/
def runSched (c : Nat) (total : Int) (sched : List (Fin c)) : SchedState c :=
  sched.foldl (schedStep total) (initState c)

/-- Number of workers that have stopped. -/
def doneCountF {c : Nat} (d : Fin c → Bool) : Nat :=
  (Finset.univ.filter fun w => d w = true).card

/-- The request-count fix-up in `main` (both variants, src/main.go
211–218 and 472–479): an absent or zero `-n` defaults to the catalog
size when a catalog was loaded, then the total is raised to the
concurrency when smaller. -/
def effectiveRequest (flagN queriesLen concurrency : Nat) : Nat :=
  let request := if flagN < 1 ∧ 0 < queriesLen then queriesLen else flagN
  if request < concurrency then concurrency else request

end Wsbm

namespace Wsbm

theorem trimSpace_length_le (p : GoStr) : (trimSpace p).length ≤ p.length := by
  unfold trimSpace
  rw [List.length_reverse]
  calc ((p.dropWhile isSpaceByte).reverse.dropWhile isSpaceByte).length
      ≤ (p.dropWhile isSpaceByte).reverse.length :=
        ((List.dropWhile_suffix _).sublist).length_le
    _ = (p.dropWhile isSpaceByte).length := List.length_reverse _
    _ ≤ p.length := ((List.dropWhile_suffix _).sublist).length_le

/-- C6: when `-n` is absent or zero and a catalog was loaded, the total
defaults to the number of successfully loaded overrides, and is then
raised to the concurrency when smaller. -/
theorem c6_total_defaults_to_catalog (flagN l c : Nat)
    (hflag : flagN = 0) (hl : 0 < l) :
    effectiveRequest flagN l c = if l < c then c else l := by
  subst hflag
  simp [effectiveRequest, hl]

theorem c6_total_defaults_to_catalog_witness :
    effectiveRequest 0 3 5 = 5 := by
  have h := c6_total_defaults_to_catalog 0 3 5 rfl (by decide)
  simpa using h

/-- C9: variant 2's stdout sink does not relay the payload verbatim: it
writes the whitespace-trimmed payload followed by a newline and returns
the trimmed byte count, which is at most the input length — and for the
input `" a "` strictly smaller even though the write succeeds. -/
theorem c9_stdout_write_trims :
    (∀ p : GoStr,
       (V2.stdoutWrite p).2 = trimSpace p ++ [Char.ofNat 10] ∧
       (V2.stdoutWrite p).1 = (trimSpace p).length ∧
       (V2.stdoutWrite p).1 ≤ p.length) ∧
    (V2.stdoutWrite (goStr " a ")).1 < (goStr " a ").length := by
  constructor
  · intro p
    exact ⟨rfl, rfl, trimSpace_length_le p⟩
  · decide

theorem dryRunLoopF_eq (b : V2.WsBenchmark) (request : Nat) :
    ∀ (fuel id : Nat), request + 1 ≤ id + fuel →
      V2.dryRunLoopF fuel b request id =
        (List.range' id (request + 1 - id)).filterMap
          (fun i => (V2.WsBenchmark.getUrl b i).map fun u =>
            (i, u.toUrlString)) := by
  intro fuel
  induction fuel with
  | zero =>
    intro id h
    have h0 : request + 1 - id = 0 := by omega
    simp [V2.dryRunLoopF, h0]
  | succ fuel ih =>
    intro id h
    rw [V2.dryRunLoopF]
    by_cases hle : id ≤ request
    · rw [if_pos hle]
      have hm : request + 1 - id = (request + 1 - (id + 1)) + 1 := by omega
      rw [hm, List.range'_succ, List.filterMap_cons]
      have hrec := ih (id + 1) (by omega)
      cases hu : V2.WsBenchmark.getUrl b id <;> simp [hu, hrec]
    · rw [if_neg hle]
      have h0 : request + 1 - id = 0 := by omega
      simp [h0]

/-- C8: dry-run iterates ids `1..total` sequentially, logging one
resolved URL per successfully resolved id (and nothing else); its body
opens no sink and dials no connection — with `total = 3` and template
`ws://h/<id>` it logs exactly `ws://h/1`, `ws://h/2`, `ws://h/3`. -/
theorem c8_dryrun_sequential :
    (∀ (b : V2.WsBenchmark) (request : Nat),
       V2.DryRun b request =
         (List.range' 1 request).filterMap
           (fun i => (V2.WsBenchmark.getUrl b i).map fun u =>
             (i, u.toUrlString))) ∧
    V2.DryRun ⟨goStr "ws://h/<id>", []⟩ 3 =
      [(1, goStr "ws://h/1"), (2, goStr "ws://h/2"), (3, goStr "ws://h/3")] := by
  constructor
  · intro b request
    rw [V2.DryRun, dryRunLoopF_eq b request (request + 1) 1 (by omega)]
    simp
  · decide

end Wsbm

namespace Wsbm

/-- First line of the claim's example catalog: the JSON object with key
`a` and value `"1"` (braces spelled via `lbrace`/`rbrace`). -/
def exLine1 : GoStr := lbrace :: (goStr "\"a\":\"1\"" ++ [rbrace])

/-- Second line of the claim's example catalog: key `b`, value `"2"`. -/
def exLine2 : GoStr := lbrace :: (goStr "\"b\":\"2\"" ++ [rbrace])

/-- The catalog loaded from the example file. -/
def exCatalog : List Values := (V2.loadQueries [exLine1, exLine2]).1

/-- The benchmark over the 2-entry example catalog. -/
def exBench : V2.WsBenchmark := ⟨goStr "ws://h", exCatalog⟩

/-- C5: for a non-empty catalog the override used for task `id` is the
entry at index `id % len`; on the claim's 2-entry catalog
`[{"a":"1"}, {"b":"2"}]` tasks 1,2,3,4 select indices 1,0,1,0, giving
resolved URLs `ws://h?b=2`, `ws://h?a=1`, `ws://h?b=2`, `ws://h?a=1` —
the selection is a pure function of the id, identical on every run. -/
theorem c5_override_selection :
    (∀ (b : V2.WsBenchmark) (id : Nat), 0 < b.queries.length →
       V2.WsBenchmark.getUrl b id
         = (urlParse (goReplace b.url idToken (decimalStr id))).map
             (fun u => fixScheme (applyOverride u
               (b.queries.getD (id % b.queries.length) [])))) ∧
    exCatalog = [[(goStr "a", [goStr "1"])], [(goStr "b", [goStr "2"])]] ∧
    V2.overrideSel exBench 1 = [(goStr "b", [goStr "2"])] ∧
    V2.overrideSel exBench 2 = [(goStr "a", [goStr "1"])] ∧
    V2.overrideSel exBench 3 = [(goStr "b", [goStr "2"])] ∧
    V2.overrideSel exBench 4 = [(goStr "a", [goStr "1"])] ∧
    (V2.WsBenchmark.getUrl exBench 1).map GoURL.toUrlString
      = some (goStr "ws://h?b=2") ∧
    (V2.WsBenchmark.getUrl exBench 2).map GoURL.toUrlString
      = some (goStr "ws://h?a=1") ∧
    (V2.WsBenchmark.getUrl exBench 3).map GoURL.toUrlString
      = some (goStr "ws://h?b=2") ∧
    (V2.WsBenchmark.getUrl exBench 4).map GoURL.toUrlString
      = some (goStr "ws://h?a=1") := by
  refine ⟨?_, by decide, by decide, by decide, by decide, by decide,
    by decide, by decide, by decide, by decide⟩
  intro b id h
  rw [V2.WsBenchmark.getUrl]
  cases hp : urlParse (goReplace b.url idToken (decimalStr id)) with
  | none => simp
  | some u => simp [h, V2.overrideSel]

theorem c5_override_selection_witness :
    V2.WsBenchmark.getUrl exBench 1
      = (urlParse (goReplace exBench.url idToken (decimalStr 1))).map
          (fun u => fixScheme (applyOverride u
            (exBench.queries.getD (1 % exBench.queries.length) []))) :=
  c5_override_selection.1 exBench 1 (by decide)

theorem mem_writeEvents {e : V2.Ev} {msgs : List (Nat × GoStr)}
    (h : e ∈ V2.writeEvents msgs) : ∃ c, e = V2.Ev.writeMsg c := by
  simp only [V2.writeEvents, List.mem_filterMap] at h
  obtain ⟨m, _, he⟩ := h
  split at he
  · exact ⟨m.2, (Option.some_inj.mp he).symm⟩
  · cases he

theorem writeEvents_count_sinkClose (msgs : List (Nat × GoStr)) :
    (V2.writeEvents msgs).count V2.Ev.sinkClose = 0 := by
  rw [List.count_eq_zero]
  intro hmem
  obtain ⟨c, hc⟩ := mem_writeEvents hmem
  cases hc

theorem writeEvents_count_sinkOpen (msgs : List (Nat × GoStr)) :
    (V2.writeEvents msgs).count V2.Ev.sinkOpen = 0 := by
  rw [List.count_eq_zero]
  intro hmem
  obtain ⟨c, hc⟩ := mem_writeEvents hmem
  cases hc

theorem writeEvents_count_connClose (msgs : List (Nat × GoStr)) :
    (V2.writeEvents msgs).count V2.Ev.connClose = 0 := by
  rw [List.count_eq_zero]
  intro hmem
  obtain ⟨c, hc⟩ := mem_writeEvents hmem
  cases hc

theorem writeEvents_count_connOpen (msgs : List (Nat × GoStr)) :
    (V2.writeEvents msgs).count V2.Ev.connOpen = 0 := by
  rw [List.count_eq_zero]
  intro hmem
  obtain ⟨c, hc⟩ := mem_writeEvents hmem
  cases hc

/-- C7: on every exit path of `runTask` the sink and the connection are
each closed exactly as many times as they were opened (and at most
once): a resolve failure or a sink-open failure returns with nothing
opened, a dial failure closes the already-opened sink, and a read error
ending the receive loop runs both deferred closes. -/
theorem c7_runtask_closes (b : V2.WsBenchmark) (id : Nat)
    (env : V2.TaskEnv) :
    ((V2.runTask b id env).2.count V2.Ev.sinkClose
      = (V2.runTask b id env).2.count V2.Ev.sinkOpen) ∧
    ((V2.runTask b id env).2.count V2.Ev.connClose
      = (V2.runTask b id env).2.count V2.Ev.connOpen) ∧
    (V2.runTask b id env).2.count V2.Ev.sinkOpen ≤ 1 ∧
    (V2.runTask b id env).2.count V2.Ev.connOpen ≤ 1 ∧
    (V2.WsBenchmark.getUrl b id = none → (V2.runTask b id env).2 = []) ∧
    (env.openOk = false → (V2.runTask b id env).2 = []) ∧
    (V2.WsBenchmark.getUrl b id ≠ none → env.openOk = true →
      env.dialOk = false →
      (V2.runTask b id env).2 = [V2.Ev.sinkOpen, V2.Ev.sinkClose]) ∧
    (V2.WsBenchmark.getUrl b id ≠ none → env.openOk = true →
      env.dialOk = true →
      (V2.runTask b id env).2
        = [V2.Ev.sinkOpen, V2.Ev.connOpen] ++ V2.writeEvents env.msgs ++
          [V2.Ev.connClose, V2.Ev.sinkClose]) := by
  rw [V2.runTask]
  cases hu : V2.WsBenchmark.getUrl b id with
  | none => simp
  | some u =>
    cases hopen : env.openOk with
    | false => simp
    | true =>
      cases hdial : env.dialOk with
      | false => simp
      | true =>
        simp [List.count_append, List.count_cons,
          writeEvents_count_sinkClose, writeEvents_count_sinkOpen,
          writeEvents_count_connClose, writeEvents_count_connOpen]

end Wsbm

namespace Wsbm

theorem c7_runtask_closes_witness :
    (V2.runTask ⟨goStr "ws://h", []⟩ 1 ⟨true, false, []⟩).2
      = [V2.Ev.sinkOpen, V2.Ev.sinkClose] :=
  (c7_runtask_closes ⟨goStr "ws://h", []⟩ 1
      ⟨true, false, []⟩).2.2.2.2.2.2.1 (by decide) rfl rfl

/-- The per-line outcome of variant 2's load: `none` for a blank or
unparsable line, `some q` for a line parsed to `q`. -/
def lineOutcome (l : GoStr) : Option Values :=
  if (trimSpace l).isEmpty then none else V2.parseLine (trimSpace l)

/-- A blank line is skipped silently; a non-blank unparsable line is
the one that gets warned about. -/
def lineWarned (l : GoStr) : Option GoStr :=
  if (trimSpace l).isEmpty then none
  else match V2.parseLine (trimSpace l) with
       | some _ => none
       | none => some (trimSpace l)

theorem loadQueries_foldl (lines : List GoStr) :
    ∀ acc : List Values × List GoStr,
      lines.foldl
        (fun acc line =>
          let t := trimSpace line
          if t.isEmpty then acc
          else
            match V2.parseLine t with
            | some q => (acc.1 ++ [q], acc.2)
            | none => (acc.1, acc.2 ++ [t]))
        acc
      = (acc.1 ++ lines.filterMap lineOutcome,
         acc.2 ++ lines.filterMap lineWarned) := by
  induction lines with
  | nil => intro acc; simp
  | cons l ls ih =>
    intro acc
    rw [List.foldl_cons, ih]
    simp only [List.filterMap_cons, lineOutcome, lineWarned]
    by_cases hb : (trimSpace l).isEmpty
    · simp [hb]
    · cases hp : V2.parseLine (trimSpace l) with
      | none => simp [hb, hp]
      | some q => simp [hb, hp]

/-- C2: variant 2's `loadQueries` skips blank lines, warns about and
skips non-blank lines that fail their detected format (JSON when the
line starts with `{`, URL-encoded query otherwise), and returns exactly
the successfully parsed lines in file order; on the example file the
lines `{` and `x=%zz` are warned about and skipped while the others
load. -/
theorem c2_loadqueries_skips_bad_lines :
    (∀ lines : List GoStr,
       V2.loadQueries lines
         = (lines.filterMap lineOutcome, lines.filterMap lineWarned)) ∧
    V2.loadQueries
        [exLine1, goStr "   ", [lbrace], goStr "x=%zz", exLine2]
      = ([[(goStr "a", [goStr "1"])], [(goStr "b", [goStr "2"])]],
         [[lbrace], goStr "x=%zz"]) := by
  constructor
  · intro lines
    rw [V2.loadQueries, loadQueries_foldl]
    simp
  · decide

end Wsbm

namespace Wsbm

theorem int32ToInt_lt_half (n : Nat) : int32ToInt n < (HALF : Int) := by
  rw [int32ToInt]
  split
  · rename_i h
    exact_mod_cast h
  · rename_i h
    have hlt : n % WRAP < WRAP := Nat.mod_lt _ (by decide)
    omega

theorem int32ToInt_le_max (n : Nat) : int32ToInt n ≤ (2147483647 : Int) := by
  have h := int32ToInt_lt_half n
  rw [HALF] at h
  omega

theorem int32ToInt_of_lt {n : Nat} (h : n < HALF) : int32ToInt n = (n : Int) := by
  have hw : n < WRAP := by
    have h2 : HALF < WRAP := by decide
    omega
  rw [int32ToInt, Nat.mod_eq_of_lt hw, if_pos h]

theorem int32ToInt_mod (n : Nat) : int32ToInt (n % WRAP) = int32ToInt n := by
  have h : n % WRAP % WRAP = n % WRAP :=
    Nat.mod_eq_of_lt (Nat.mod_lt _ (by decide))
  rw [int32ToInt, int32ToInt, h]

theorem doneCountF_lt {c : Nat} {d : Fin c → Bool} {w : Fin c}
    (hw : d w = false) : doneCountF d < c := by
  rw [doneCountF]
  have hsub : (Finset.univ.filter fun w2 => d w2 = true)
      ⊆ Finset.univ.erase w := by
    intro x hx
    simp only [Finset.mem_filter] at hx
    refine Finset.mem_erase.mpr ⟨?_, Finset.mem_univ x⟩
    rintro rfl
    rw [hw] at hx
    exact absurd hx.2 (by simp)
  have h1 := Finset.card_le_card hsub
  have h2 : (Finset.univ.erase w).card = Finset.univ.card - 1 :=
    Finset.card_erase_of_mem (Finset.mem_univ w)
  have h3 : (Finset.univ : Finset (Fin c)).card = c := by simp
  have hc : 0 < c := w.pos
  omega

theorem doneCountF_update {c : Nat} {d : Fin c → Bool} {w : Fin c}
    (hw : d w = false) :
    doneCountF (Function.update d w true) = doneCountF d + 1 := by
  rw [doneCountF, doneCountF]
  have hset : (Finset.univ.filter fun w2 =>
        Function.update d w true w2 = true)
      = insert w (Finset.univ.filter fun w2 => d w2 = true) := by
    ext x
    by_cases hx : x = w
    · subst hx
      simp [Function.update]
    · simp [Function.update, hx]
  rw [hset, Finset.card_insert_of_not_mem (by simp [hw])]

/-- Scheduler invariant for the wrap-free regime: the counter (whose
bit pattern then equals its value) never exceeds the total by more
than the number of stopped workers, the ids claimed so far are exactly
`1..min(counter, total)` in order, and a worker only stops after the
counter has passed the total. -/
def schedInv (c total : Nat) (s : SchedState c) : Prop :=
  s.counter ≤ total + doneCountF s.done ∧
  s.claims.map Prod.snd
    = (List.range' 1 (min s.counter total)).map Int.ofNat ∧
  (∀ w, s.done w = true → total < s.counter)

theorem range'_snoc (n : Nat) :
    List.range' 1 n ++ [n + 1] = List.range' 1 (n + 1) := by
  have h := List.range'_append 1 n 1 1
  simpa [Nat.add_comm] using h

theorem schedStep_inv {c total : Nat} (htc : total + c < HALF)
    {s : SchedState c} (w : Fin c) (h : schedInv c total s) :
    schedInv c total (schedStep (total : Int) s w) := by
  obtain ⟨hbound, hclaims, hdone⟩ := h
  rw [schedStep]
  by_cases hw : s.done w
  · simpa [hw] using ⟨hbound, hclaims, hdone⟩
  · rw [if_neg hw]
    dsimp only
    have hwf : s.done w = false := by simpa using hw
    have hdlt : doneCountF s.done < c := doneCountF_lt hwf
    have hcnt : s.counter + 1 < HALF := by omega
    have hmod : (s.counter + 1) % WRAP = s.counter + 1 := by
      apply Nat.mod_eq_of_lt
      have h2 : HALF < WRAP := by decide
      omega
    rw [hmod, int32ToInt_of_lt hcnt]
    by_cases hlt : total < s.counter + 1
    · rw [if_pos (by exact_mod_cast hlt)]
      refine ⟨?_, ?_, ?_⟩
      · dsimp only
        rw [doneCountF_update hwf]
        omega
      · have hmin : min (s.counter + 1) total = min s.counter total := by
          omega
        simpa [hmin] using hclaims
      · intro w2 hw2
        dsimp only at hw2 ⊢
        by_cases hww : w2 = w
        · omega
        · have hd2 : s.done w2 = true := by
            simpa [Function.update, hww] using hw2
          have := hdone w2 hd2
          omega
    · rw [if_neg (by exact_mod_cast hlt)]
      refine ⟨?_, ?_, ?_⟩
      · dsimp only
        omega
      · have h1 : min s.counter total = s.counter := by omega
        have h2 : min (s.counter + 1) total = s.counter + 1 := by omega
        dsimp only
        simp only [h2]
        rw [List.map_append, hclaims, h1]
        rw [← range'_snoc s.counter, List.map_append]
        simp
      · intro w2 hw2
        dsimp only at hw2 ⊢
        have := hdone w2 hw2
        omega

theorem runSched_inv (c total : Nat) (htc : total + c < HALF)
    (sched : List (Fin c)) :
    schedInv c total (runSched c (total : Int) sched) := by
  rw [runSched]
  have hinit : schedInv c total (initState c) := by
    refine ⟨?_, ?_, ?_⟩
    · simp [initState]
    · simp [initState]
    · intro w hw
      simp [initState] at hw
  generalize hs : initState c = s0
  rw [hs] at hinit
  clear hs
  induction sched generalizing s0 with
  | nil => simpa using hinit
  | cons w ws ih =>
    rw [List.foldl_cons]
    exact ih _ (schedStep_inv htc w hinit)

/-- C1 (amended): in the wrap-free regime `total + concurrency < 2^31`,
any completed run of the scheduler — every worker has observed an id
past the total and stopped — has claimed exactly the task ids
`1, 2, ..., total` in counter order, each by exactly one worker exactly
once (no duplicate, no gap), regardless of the interleaving of the
workers' atomic increments. -/
theorem c1_tasks_claimed_exactly_once (c total : Nat)
    (sched : List (Fin c)) (hc : 0 < c) (htc : total + c < HALF)
    (hdone : ∀ w, (runSched c (total : Int) sched).done w = true) :
    (runSched c (total : Int) sched).claims.map Prod.snd
      = (List.range' 1 total).map Int.ofNat := by
  obtain ⟨hbound, hclaims, hstop⟩ := runSched_inv c total htc sched
  have hcnt := hstop ⟨0, hc⟩ (hdone ⟨0, hc⟩)
  have hmin : min (runSched c (total : Int) sched).counter total = total := by
    omega
  rw [hclaims, hmin]

theorem c1_tasks_claimed_exactly_once_witness :
    (runSched 1 ((1 : Nat) : Int) [0, 0]).claims.map Prod.snd
      = (List.range' 1 1).map Int.ofNat :=
  c1_tasks_claimed_exactly_once 1 1 [0, 0] (by decide) (by decide)
    (by decide)

/-- With a total at or above `2^31 - 1`, no sign-extended `int32` id
can exceed it, so a single worker never stops: it claims the wrapping
sequence of counter values forever. -/
theorem runSched_one_worker (total : Int)
    (htot : (2147483647 : Int) ≤ total) (k : Nat) :
    runSched 1 total (List.replicate k 0)
      = ⟨k % WRAP, fun _ => false,
         (List.range' 1 k).map fun j => ((0 : Fin 1), int32ToInt j)⟩ := by
  induction k with
  | zero => rfl
  | succ k ih =>
    have hstep : runSched 1 total (List.replicate (k + 1) 0)
        = schedStep total (runSched 1 total (List.replicate k 0)) 0 := by
      rw [List.replicate_succ', runSched, runSched, List.foldl_append,
        List.foldl_cons, List.foldl_nil]
    rw [hstep, ih, schedStep]
    rw [if_neg (by simp)]
    dsimp only
    rw [Nat.mod_add_mod, int32ToInt_mod]
    rw [if_neg (by have := int32ToInt_le_max (k + 1); omega)]
    rw [← range'_snoc k, List.map_append]
    rfl

/-- C1 counterexample: at `total = 2^31` (reachable through `-n`, since
the request total is a 64-bit `int`) the shared `int32` counter wraps.
With one worker, after `2^32 + 1` increments the run has claimed task
id 1 twice — no sign-extended id can exceed `2^31 - 1 < total`, so no
worker ever stops and ids repeat — refuting "each claimed by exactly
one worker exactly once" for every `total ≥ 1`, `concurrency ≥ 1`. -/
theorem c1_wrap_counterexample :
    ¬ ((runSched 1 ((2147483648 : Nat) : Int)
          (List.replicate 4294967297 0)).claims.map Prod.snd).Nodup := by
  rw [runSched_one_worker _ (by norm_num) 4294967297]
  dsimp only
  rw [List.map_map]
  intro hnd
  have hlen : ((List.range' 1 4294967297).map
      (Prod.snd ∘ fun j => ((0 : Fin 1), int32ToInt j))).length
      = 4294967297 := by
    simp
  have h0lt : 0 < ((List.range' 1 4294967297).map
      (Prod.snd ∘ fun j => ((0 : Fin 1), int32ToInt j))).length := by
    rw [hlen]
    norm_num
  have hWlt : 4294967296 < ((List.range' 1 4294967297).map
      (Prod.snd ∘ fun j => ((0 : Fin 1), int32ToInt j))).length := by
    rw [hlen]
    norm_num
  have h0 : ((List.range' 1 4294967297).map
      (Prod.snd ∘ fun j => ((0 : Fin 1), int32ToInt j))).get ⟨0, h0lt⟩
      = (1 : Int) := by
    rw [List.get_eq_getElem]
    dsimp only
    rw [List.getElem_map, List.getElem_range'_1]
    decide
  have hW : ((List.range' 1 4294967297).map
      (Prod.snd ∘ fun j => ((0 : Fin 1), int32ToInt j))).get
        ⟨4294967296, hWlt⟩ = (1 : Int) := by
    rw [List.get_eq_getElem]
    dsimp only
    rw [List.getElem_map, List.getElem_range'_1]
    decide
  have hinj := List.nodup_iff_injective_get.mp hnd
  have heq := hinj (h0.trans hW.symm)
  have hval : (0 : Nat) = 4294967296 := congrArg Fin.val heq
  norm_num at hval

end Wsbm

namespace Wsbm

/-- C3 counterexample: with template `http://h/<id>` and id 1, the
substituted template is `http://h/1` but the resolver returns
`ws://h/1` — the scheme was rewritten, so resolution does not leave the
rest of the template untouched. -/
theorem c3_counterexample :
    goReplace (goStr "http://h/<id>") idToken (decimalStr 1)
      = goStr "http://h/1" ∧
    (V2.WsBenchmark.getUrl ⟨goStr "http://h/<id>", []⟩ 1).map
        GoURL.toUrlString = some (goStr "ws://h/1") ∧
    goStr "ws://h/1" ≠ goStr "http://h/1" :=
  ⟨by decide, by decide, by decide⟩

/-- C3 (amended): with an empty catalog the resolver parses the
template with every occurrence of `<id>` replaced by the decimal id,
applying only the scheme rewrite on top; the substitution is exactly
`join(split(template, "<id>"), decimal id)` — the chunks between
occurrences reassemble the template unchanged and none of them contains
a further occurrence of the placeholder. -/
theorem c3_empty_catalog_substitutes_all (tmpl : GoStr) (id : Nat) :
    V2.WsBenchmark.getUrl ⟨tmpl, []⟩ id
      = (urlParse (goReplace tmpl idToken (decimalStr id))).map fixScheme ∧
    joinWith idToken (splitSeq idToken tmpl) = tmpl ∧
    ∀ chunk ∈ splitSeq idToken tmpl, ¬ idToken <:+: chunk := by
  refine ⟨?_, joinWith_splitSeq idToken (by decide) tmpl,
    splitSeq_chunk_no_tok idToken (by decide) tmpl⟩
  rw [V2.WsBenchmark.getUrl]
  cases hp : urlParse (goReplace tmpl idToken (decimalStr id)) <;> simp

theorem c3_empty_catalog_substitutes_all_witness :
    V2.WsBenchmark.getUrl ⟨goStr "ws://h/<id>", []⟩ 5
      = (urlParse (goReplace (goStr "ws://h/<id>") idToken
          (decimalStr 5))).map fixScheme :=
  (c3_empty_catalog_substitutes_all (goStr "ws://h/<id>") 5).1

end Wsbm

namespace Wsbm

theorem vGet_vSet_self (vs : Values) (k : GoStr) (v : List GoStr) :
    vGet (vSet vs k v) k = some v := by
  induction vs with
  | nil => simp [vSet, vGet]
  | cons e rest ih =>
    obtain ⟨k1, v1⟩ := e
    by_cases hk : k1 = k
    · simp [vSet, vGet, hk]
    · simp [vSet, vGet, hk, ih]

theorem vGet_vSet_other (vs : Values) (k k2 : GoStr) (v : List GoStr)
    (hne : k ≠ k2) : vGet (vSet vs k v) k2 = vGet vs k2 := by
  induction vs with
  | nil => simp [vSet, vGet, hne]
  | cons e rest ih =>
    obtain ⟨k1, v1⟩ := e
    by_cases hk : k1 = k
    · subst hk
      simp [vSet, vGet, hne]
    · simp [vSet, vGet, hk, ih]

theorem vGet_eq_none (vs : Values) (k : GoStr)
    (h : k ∉ vs.map Prod.fst) : vGet vs k = none := by
  induction vs with
  | nil => simp [vGet]
  | cons e rest ih =>
    obtain ⟨k1, v1⟩ := e
    simp only [List.map_cons, List.mem_cons] at h
    push_neg at h
    have hne : ¬ k1 = k := fun hq => h.1 hq.symm
    simp [vGet, hne, ih h.2]

/-- Merging a no-duplicate-keys map `es` into `orig` by repeated map
assignment: a key of `es` ends bound to its `es` value, every other key
keeps its `orig` binding. -/
theorem vGet_mergeQuery (es : Values) :
    ∀ (orig : Values) (k : GoStr), (es.map Prod.fst).Nodup →
      vGet (mergeQuery orig es) k
        = ((vGet es k).orElse fun _ => vGet orig k) := by
  induction es with
  | nil => intro orig k _; simp [mergeQuery, vGet]
  | cons e rest ih =>
    intro orig k hnd
    obtain ⟨ke, ve⟩ := e
    simp only [List.map_cons, List.nodup_cons] at hnd
    have hstep : mergeQuery orig ((ke, ve) :: rest)
        = mergeQuery (vSet orig ke ve) rest := by
      simp [mergeQuery]
    rw [hstep, ih (vSet orig ke ve) k hnd.2]
    by_cases hk : ke = k
    · subst hk
      have hnone : vGet rest ke = none :=
        vGet_eq_none rest ke hnd.1
      simp [hnone, vGet, vGet_vSet_self]
    · simp [vGet, hk, vGet_vSet_other orig ke k ve hk]

/-- C4: each key of the selected override overwrites (does not append
to) the same-named key in the template URL's query parameters, and
every template query key absent from the override keeps its value; the
resolved URL's raw query is the encoding of exactly this merged map. -/
theorem c4_override_overwrites (b : V2.WsBenchmark) (id : Nat) (u : GoURL)
    (hq : 0 < b.queries.length)
    (hparse : urlParse (goReplace b.url idToken (decimalStr id)) = some u)
    (hnd : ((V2.overrideSel b id).map Prod.fst).Nodup) :
    V2.WsBenchmark.getUrl b id
      = some (fixScheme (applyOverride u (V2.overrideSel b id))) ∧
    ∀ k, vGet (mergeQuery (uQueryValues u) (V2.overrideSel b id)) k
        = ((vGet (V2.overrideSel b id) k).orElse
            fun _ => vGet (uQueryValues u) k) := by
  constructor
  · rw [V2.WsBenchmark.getUrl, hparse]
    simp [hq]
  · intro k
    exact vGet_mergeQuery (V2.overrideSel b id) (uQueryValues u) k hnd

/-- The witness template: an existing query `a=0&c=3`, overridden with
`a=9` by the single catalog entry. -/
def c4Bench : V2.WsBenchmark :=
  ⟨goStr "ws://h/p?a=0&c=3", [[(goStr "a", [goStr "9"])]]⟩

def c4Url : GoURL :=
  ⟨goStr "ws", goStr "h", goStr "/p", false, goStr "a=0&c=3", []⟩

theorem c4_override_overwrites_witness :
    V2.WsBenchmark.getUrl c4Bench 1
      = some (fixScheme (applyOverride c4Url (V2.overrideSel c4Bench 1))) ∧
    vGet (mergeQuery (uQueryValues c4Url) (V2.overrideSel c4Bench 1))
        (goStr "a") = some [goStr "9"] ∧
    vGet (mergeQuery (uQueryValues c4Url) (V2.overrideSel c4Bench 1))
        (goStr "c") = some [goStr "3"] := by
  have h := c4_override_overwrites c4Bench 1 c4Url
    (by decide) (by decide) (by decide)
  refine ⟨h.1, ?_, ?_⟩
  · rw [h.2 (goStr "a")]
    decide
  · rw [h.2 (goStr "c")]
    decide

end Wsbm

namespace Wsbm

theorem filterMap_eq_map_of_some {α β : Type} (f : α → Option β)
    (g : α → β) :
    ∀ l : List α, (∀ x ∈ l, f x = some (g x)) → l.filterMap f = l.map g := by
  intro l
  induction l with
  | nil => intro _; simp
  | cons a as ih =>
    intro h
    rw [List.filterMap_cons, h a (by simp)]
    rw [List.map_cons, ih (fun x hx => h x (by simp [hx]))]

theorem parseLine_query {t : GoStr} (hne : t.isEmpty = false)
    (hnj : t.head? ≠ some lbrace) (hok : (parseQuery t).2 = false) :
    V2.parseLine t = some (parseQuery t).1 := by
  match t with
  | [] => simp at hne
  | c :: rest =>
    have hc : ¬ c = lbrace := by simpa using hnj
    simp [V2.parseLine, hc, hok]

theorem getD_map {α β : Type} (f : α → β) (l : List α) (i : Nat) (d : β)
    (h : i < l.length) :
    (l.map f).getD i d = f (l.get ⟨i, h⟩) := by
  rw [List.getD_eq_getElem?_getD, List.getElem?_map,
    List.getElem?_eq_getElem h]
  simp

/-- C10: on a catalog file whose lines are all non-blank, non-JSON and
well-formed URL-encoded queries, variant 1's resolver (raw lines kept
at load, parsed per task) and variant 2's resolver (lines parsed at
load) produce the same resolved URL for every template and id. -/
theorem c10_variants_resolve_equal (lines : List GoStr) (tmpl : GoStr)
    (id : Nat)
    (hnb : ∀ l ∈ lines, (trimSpace l).isEmpty = false)
    (hnj : ∀ l ∈ lines, (trimSpace l).head? ≠ some lbrace)
    (hok : ∀ l ∈ lines, (parseQuery (trimSpace l)).2 = false) :
    V1.WsBenchmark.getUrl ⟨tmpl, V1.loadQueries lines⟩ id
      = V2.WsBenchmark.getUrl ⟨tmpl, (V2.loadQueries lines).1⟩ id := by
  have hcat2 : (V2.loadQueries lines).1
      = lines.map fun l => (parseQuery (trimSpace l)).1 := by
    rw [V2.loadQueries, loadQueries_foldl]
    simp only [List.nil_append]
    exact filterMap_eq_map_of_some _ _ lines fun l hl => by
      rw [lineOutcome, if_neg (by simp [hnb l hl])]
      exact parseLine_query (hnb l hl) (hnj l hl) (hok l hl)
  have hlen1 : (V1.loadQueries lines).length = lines.length := by
    simp [V1.loadQueries]
  have hlen2 : ((V2.loadQueries lines).1).length = lines.length := by
    simp [hcat2]
  rw [V1.WsBenchmark.getUrl, V2.WsBenchmark.getUrl]
  cases hp : urlParse (goReplace tmpl idToken (decimalStr id)) with
  | none => rfl
  | some u =>
    dsimp only
    by_cases hpos : 0 < lines.length
    · have h1 : 0 < (V1.loadQueries lines).length := by omega
      have h2 : 0 < ((V2.loadQueries lines).1).length := by omega
      rw [if_pos h1, if_pos h2]
      have hi : id % lines.length < lines.length := Nat.mod_lt _ hpos
      have hmem : lines.get ⟨id % lines.length, hi⟩ ∈ lines :=
        List.get_mem _ _ _
      have hraw : (V1.loadQueries lines).getD
          (id % (V1.loadQueries lines).length) []
          = trimSpace (lines.get ⟨id % lines.length, hi⟩) := by
        rw [V1.loadQueries] at hlen1 ⊢
        rw [hlen1]
        exact getD_map trimSpace lines _ [] hi
      have hov : ((V2.loadQueries lines).1).getD
          (id % ((V2.loadQueries lines).1).length) []
          = (parseQuery (trimSpace
              (lines.get ⟨id % lines.length, hi⟩))).1 := by
        rw [hcat2] at hlen2 ⊢
        rw [hlen2]
        exact getD_map _ lines _ [] hi
      simp only [hraw, V2.overrideSel, hov]
      rw [if_neg (by simpa [List.get_eq_getElem] using hok _ hmem)]
    · rw [if_neg (by omega), if_neg (by omega)]

theorem c10_variants_resolve_equal_witness :
    V1.WsBenchmark.getUrl
        ⟨goStr "ws://h/<id>", V1.loadQueries [goStr "a=1"]⟩ 1
      = V2.WsBenchmark.getUrl
        ⟨goStr "ws://h/<id>", (V2.loadQueries [goStr "a=1"]).1⟩ 1 :=
  c10_variants_resolve_equal [goStr "a=1"] (goStr "ws://h/<id>") 1
    (by decide) (by decide) (by decide)

end Wsbm
